import Mathlib

/-!
# Functor, Monad and Free over `jewulo/free_monads`

A shallow embedding of

* `src/monads/functor.h`   : the `Functor` dispatch, `IsFunctor` and `NullFunctor`,
* `src/monads/monad.h`     : the `Monad` dispatch, `IsMonad` and the two infix overloads,
* `src/monads/list_monad.h`: `List` with its `Functor` and `Monad` instances,
* `src/monads/free_monad.h`: `Free`, `make_return`, `make_bind`, `fmap`, `pure`, `bind`,
  `liftFree`, `foldFree`,
* `src/monads/free.cpp`    : `id` and `compose`.

## Modelling decisions

* `List<A>` (a `std::vector<A>`) is Lean's `List A`.  The two loops of `list_monad.h`
  (`std::transform` into a `back_inserter`, and the range-`for` with `std::copy`) are
  left folds that append to an accumulator that starts empty.
* `Free<F, A>` holds `F<Free<F, A>>` inside itself.  Lean accepts such a recursive
  occurrence only below a strictly positive `F`, so an effect functor is presented
  together with its shapes and positions: `F X` is in bijection with the pairs of a
  shape `s` and a filling `Pos s → X` (`unpack` / `pack`), and `F`'s own `fmap`
  relabels the filling.  A `Bind` node stores its payload in unpacked form;
  `make_bind` and `Free.payload` convert from and to `F (Free F A)`.
* The recursive functions over `Free` are structural recursions on the stored filling.
  The defining equations of the source, in which the recursive call sits inside a
  lambda handed to `Functor::fmap` or to `>>=`, are theorems about them.
* The source's recursions are also given as written, with the lambda making the
  recursive call and a bound on the depth of nested calls (`foldFree_fuel`,
  `fmap_fuel`, `bind_fuel`); with enough fuel they return the value of the structural
  recursion.
* `IsFunctor` and `IsMonad` are evaluated by the compiler; they are functions of what
  the translation unit provides for a class template.
-/

namespace FreeMonads

/-! ## `free.cpp`: `id` and `compose` -/

/-- Source `id` of `free.cpp`: `id x = x`. -/
def id {A : Type} (a : A) : A := a

/-- Source `compose` of `free.cpp`: `compose f g = \x -> f (g x)`. -/
def compose {A B C : Type} (f : B → C) (g : A → B) : A → C := fun x => f (g x)

/-! ## `list_monad.h` -/

namespace ListFunctor

/-- Source `Functor<List>::fmap`: `result` starts empty and `std::transform` pushes
`f x` to its back for every `x` of `ls`, front to back. -/
def fmap {A B : Type} (f : A → B) (ls : List A) : List B :=
  ls.foldl (fun result x => result ++ [f x]) []

end ListFunctor

namespace ListMonad

/-- Source `Monad<List>::pure`: `List<A>({x})`. -/
def pure {A : Type} (x : A) : List A := [x]

/-- Source `Monad<List>::bind`: `result` starts empty; for every `x` of `ls`, front to
back, the elements of `f x` are copied to the back of `result`. -/
def bind {A B : Type} (ls : List A) (f : A → List B) : List B :=
  ls.foldl (fun result x => result ++ f x) []

end ListMonad

/-! ## `monad.h`: dispatch through a `Monad<M>` implementation -/

/-- A `Monad<M>` specialisation: the two static members `pure` and `bind`. -/
structure MonadImpl (M : Type → Type) where
  pure : {A : Type} → A → M A
  bind : {A B : Type} → M A → (A → M B) → M B

namespace Monad

/-- Source `Monad::detail::pure`: `Monad<M>::pure(x)`. -/
def pure {M : Type → Type} (I : MonadImpl M) {A : Type} (x : A) : M A := I.pure x

/-- Source `Monad::detail::bind`: `Monad<M>::bind(m, f)`. -/
def bind {M : Type → Type} (I : MonadImpl M) {A B : Type} (m : M A) (f : A → M B) : M B :=
  I.bind m f

/-- Source `operator>>=` on a monadic value and a callable: `detail::bind(m, f)`. -/
def op_bind {M : Type → Type} (I : MonadImpl M) {A B : Type} (m : M A) (f : A → M B) : M B :=
  bind I m f

end Monad

/-- The specialisation `Monad<List>` of `list_monad.h`. -/
def Monad_List : MonadImpl List where
  pure := ListMonad.pure
  bind := ListMonad.bind

/-! ## Effect functors -/

/-- A `Functor<F>` specialisation whose `F<X>` is a container: every value of `F X` is a
shape `s` filled with one `X` per position of `s`, and `fmap` relabels the filling. -/
structure EffectFunctor where
  /-- The class template `F`. -/
  F : Type → Type
  /-- The static member `Functor<F>::fmap`. -/
  fmap : {X Y : Type} → (X → Y) → F X → F Y
  Shape : Type
  Pos : Shape → Type
  unpack : {X : Type} → F X → (s : Shape) × (Pos s → X)
  pack : {X : Type} → ((s : Shape) × (Pos s → X)) → F X
  pack_unpack : ∀ {X : Type} (x : F X), pack (unpack x) = x
  unpack_pack : ∀ {X : Type} (c : (s : Shape) × (Pos s → X)), unpack (pack c) = c
  fmap_pack : ∀ {X Y : Type} (f : X → Y) (s : Shape) (k : Pos s → X),
    fmap f (pack ⟨s, k⟩) = pack ⟨s, fun p => f (k p)⟩

namespace Functor

/-- Source `Functor::fmap`: `Functor<F>::fmap(fun, f)`. -/
def fmap (E : EffectFunctor) {X Y : Type} (f : X → Y) (x : E.F X) : E.F Y := E.fmap f x

end Functor

/-! ## `free_monad.h` -/

/-- Source `Free<F, A>`: a variant of `Return<F, A>` (field `a`) and `Bind<F, A>`
(field `x : F<Free<F, A>>`, stored as its shape and its filling). -/
inductive Free (E : EffectFunctor) (A : Type) : Type where
  | Return (a : A) : Free E A
  | Bind (s : E.Shape) (k : E.Pos s → Free E A) : Free E A

namespace Free

variable {E : EffectFunctor} {A B C : Type}

/-- The field `x` of a `Bind<F, A>` node, as a value of `F<Free<F, A>>`. -/
def payload (s : E.Shape) (k : E.Pos s → Free E A) : E.F (Free E A) := E.pack ⟨s, k⟩

/-- Source `make_return`: `{ Return<F, A>{x} }`. -/
def make_return (x : A) : Free E A := Return x

/-- Source `make_bind`: `{ Bind<F, A>{x} }`. -/
def make_bind (x : E.F (Free E A)) : Free E A := Bind (E.unpack x).1 (E.unpack x).2

/-- Source `FunctorImpl::fmap`: `Return` maps to `make_return(fun(r.a))`, `Bind` maps to
`make_bind(fmap(inner => fmap(fun, inner), b.x))`. -/
def fmap (f : A → B) : Free E A → Free E B
  | Return a => Return (f a)
  | Bind s k => Bind s (fun p => fmap f (k p))

/-- Source `MonadImpl::pure`: `make_return(x)`. -/
def pure (x : A) : Free E A := make_return x

/-- Source `MonadImpl::bind`: `Return` maps to `fun(r.a)`, `Bind` maps to
`make_bind(fmap(m => bind(m, f), b.x))`. -/
def bind : Free E A → (A → Free E B) → Free E B
  | Return a, f => f a
  | Bind s k, f => Bind s (fun p => bind (k p) f)

/-- Source `liftFree`: `make_bind(fmap(make_return, x))`. -/
def liftFree (x : E.F A) : Free E A := make_bind (Functor.fmap E make_return x)

/-- The value of the source's `foldFree` for a handler that is uniform in the element
type (`NaturalHandler`), as a structural recursion: `Return` maps to
`Monad::pure<M>(r.a)`; at `Bind` the handler is applied to the layer filled with its own
positions and the continuation resumes in the sub-tree stored at the position it
receives.  The source's recursion, with the handler applied to the payload itself, is
`foldFree_fuel`; `foldFree_fuel_eq_foldFree` relates the two. -/
def foldFree {M : Type → Type} (I : MonadImpl M) (handler : {X : Type} → E.F X → M X) :
    Free E A → M A
  | Return a => Monad.pure I a
  | Bind s k => Monad.op_bind I (handler (E.pack ⟨s, fun p => p⟩)) (fun p => foldFree I handler (k p))

/-- A handler paired with the target monad's `bind` does not depend on how the layer it
receives is labelled: relabelling the layer with `fmap` before handling it and
relabelling the argument of the continuation give the same result.  Templates and
generic lambdas that do not inspect the element type have this property, and
`handler(fmap(k, x)) = fmap_M(k, handler(x))` for a lawful `M` implies it. -/
def NaturalHandler (E : EffectFunctor) {M : Type → Type} (I : MonadImpl M)
    (handler : {X : Type} → E.F X → M X) : Prop :=
  ∀ {X Y Z : Type} (k : X → Y) (x : E.F X) (g : Y → M Z),
    I.bind (handler (E.fmap k x)) g = I.bind (handler x) (fun a => g (k a))

end Free

/-! ## `List` as an effect functor -/

/-- The specialisation `Functor<List>` of `list_monad.h`: a list of length `n` is the
shape `n` filled at the positions `0, ..., n - 1`. -/
def Functor_List : EffectFunctor where
  F := List
  fmap := ListFunctor.fmap
  Shape := Nat
  Pos := Fin
  unpack := fun l => ⟨l.length, l.get⟩
  pack := fun c => List.ofFn c.2
  pack_unpack := fun l => List.ofFn_get l
  unpack_pack := fun c => List.equivSigmaTuple.right_inv c
  fmap_pack := by
    intro X Y f s k
    have h : ∀ (ls : List X) (acc : List Y),
        ls.foldl (fun result x => result ++ [f x]) acc = acc ++ ls.map f := by
      intro ls
      induction ls with
      | nil => intro acc; simp
      | cons a t ih => intro acc; simp [ih]
    show (List.ofFn k).foldl (fun result x => result ++ [f x]) [] = List.ofFn (fun p => f (k p))
    rw [h, List.nil_append, List.map_ofFn]
    rfl

/-! ## `monad.h`: the sequencing overload -/

/-- Source: the second `operator>>=` overload of `monad.h`, which its comment introduces
as the infix `>>`: `detail::bind(m, [=](auto&&) { return v; })`. -/
def Monad.op_seq {M : Type → Type} (I : MonadImpl M) {A B : Type} (m : M A) (v : M B) : M B :=
  Monad.bind I m (fun _ => v)

/-! ## `functor.h`, `monad.h`: capability detection -/

/-- What a translation unit provides for a class template `T`: whether
`Functor<T>::fmap(dummy2(dummy1), T<dummy1>)` is a valid call of type `T<dummy2>`, and
whether a `Monad<T>` specialisation is defined. -/
structure ClassTemplate where
  fmap_canonical : Bool
  monad_defined : Bool

/-- Source `Functor::IsFunctor`: the partial specialisation of `IsFunctorT` deriving from
`std::true_type` is enabled when the call of `fmap` has the canonical type; otherwise
the primary template, `std::false_type`, is used. -/
def Functor.IsFunctor (T : ClassTemplate) : Bool :=
  if T.fmap_canonical then true else false

/-- The type-id `Monad<M>` inside `std::void_t` of `IsMonadT`.  `Monad` is declared for
every class template, and naming a specialisation needs no complete type, so the
type-id is valid whether or not a specialisation is defined. -/
def Monad.names_Monad (_T : ClassTemplate) : Bool := true

/-- Source `Monad::IsMonad`: the partial specialisation of `IsMonadT` deriving from
`std::true_type` is enabled when
`std::void_t<Monad<M>, std::enable_if_t<Functor::IsFunctor<M>>>` is valid; otherwise the
primary template, `std::false_type`, is used. -/
def Monad.IsMonad (T : ClassTemplate) : Bool :=
  if Monad.names_Monad T && Functor.IsFunctor T then true else false

/-- Source `Functor::Test::NullFunctor`: `Functor<NullFunctor>` is defined in `functor.h`
and no `Monad<NullFunctor>` is defined anywhere. -/
def Decl_NullFunctor : ClassTemplate := { fmap_canonical := true, monad_defined := false }

/-- Source `List`: `Functor<List>` and `Monad<List>` are defined in `list_monad.h`. -/
def Decl_List : ClassTemplate := { fmap_canonical := true, monad_defined := true }

/-- Source `Free::Test::NullFreeWrapper`: a Free wrapper, for which the partial
specialisations of `Functor` and `Monad` at the end of `free_monad.h` are defined. -/
def Decl_NullFreeWrapper : ClassTemplate := { fmap_canonical := true, monad_defined := true }

/-! ## Measures of a `Free` tree -/

namespace Free

/-- The tree with every leaf value erased: the `Bind` layers and where they sit. -/
def skeleton {E : EffectFunctor} {A : Type} : Free E A → Free E Unit
  | Return _ => Return ()
  | Bind s k => Bind s (fun p => skeleton (k p))

/-- The `Return` leaves of a tree over `List`, depth first and left to right: a leaf
yields its value, a `Bind` node yields the leaves of its first sub-tree, then those of
its second, and so on. -/
def leaves_dfs {A : Type} : Free Functor_List A → List A
  | Return a => [a]
  | Bind n k => (List.ofFn (fun i : Fin n => leaves_dfs (k i))).flatten

/-- The number of `Bind` nodes of a tree over `List`. -/
def bind_count {A : Type} : Free Functor_List A → Nat
  | Return _ => 0
  | Bind n k => 1 + (List.ofFn (fun i : Fin n => bind_count (k i))).sum

/-- The number of `Return` leaves of a tree over `List`. -/
def leaf_count {A : Type} : Free Functor_List A → Nat
  | Return _ => 1
  | Bind n k => (List.ofFn (fun i : Fin n => leaf_count (k i))).sum

/-- The depth of a tree over `List`: the largest number of `Bind` nodes on a path from
the root. -/
def depth {A : Type} : Free Functor_List A → Nat
  | Return _ => 0
  | Bind n k => 1 + (List.ofFn (fun i : Fin n => depth (k i))).foldr max 0

end Free

/-! ## The recursions of `free_monad.h` with a bound on the depth of nested calls -/

namespace Free

/-- Source `foldFree`, with the number of nested calls bounded by the fuel:
`Return` maps to `Monad::pure<M>(r.a)`, `Bind` maps to
`fun(b.x) >>= (inner => foldFree<M>(fun, inner))`, the handler being applied to the
payload `b.x` itself.  A call that finds no fuel left yields `bot`. -/
def foldFree_fuel {E : EffectFunctor} {A : Type} {M : Type → Type} (I : MonadImpl M)
    (handler : {X : Type} → E.F X → M X) (bot : M A) : Nat → Free E A → M A
  | 0, _ => bot
  | _ + 1, Return a => Monad.pure I a
  | n + 1, Bind s k =>
    Monad.op_bind I (handler (payload s k)) (fun inner => foldFree_fuel I handler bot n inner)

/-- A tree whose paths from the root pass at most `n` `Bind` nodes. -/
inductive DepthLe {E : EffectFunctor} {A : Type} : Nat → Free E A → Prop where
  | leaf (n : Nat) (a : A) : DepthLe n (Return a)
  | node (n : Nat) (s : E.Shape) (k : E.Pos s → Free E A) :
      (∀ p, DepthLe n (k p)) → DepthLe (n + 1) (Bind s k)

end Free

/-! ## The two loops of `list_monad.h` -/

/-- The `std::transform` loop started from any accumulator appends the mapped list. -/
theorem ListFunctor.fmap_loop {A B : Type} (f : A → B) (ls : List A) (acc : List B) :
    ls.foldl (fun result x => result ++ [f x]) acc = acc ++ ls.map f := by
  induction ls generalizing acc with
  | nil => simp
  | cons a t ih => simp [ih]

/-- `Functor<List>::fmap` is the element-wise map. -/
theorem ListFunctor.fmap_eq_map {A B : Type} (f : A → B) (ls : List A) :
    ListFunctor.fmap f ls = ls.map f := by
  unfold ListFunctor.fmap
  rw [ListFunctor.fmap_loop, List.nil_append]

/-- The `for`/`std::copy` loop started from any accumulator appends the sub-results, one
after the other. -/
theorem ListMonad.bind_loop {A B : Type} (f : A → List B) (ls : List A) (acc : List B) :
    ls.foldl (fun result x => result ++ f x) acc = acc ++ (ls.map f).flatten := by
  induction ls generalizing acc with
  | nil => simp
  | cons a t ih => simp [ih]

/-- `Monad<List>::bind` is the concatenation of the sub-results in the order of `ls`. -/
theorem ListMonad.bind_eq_flatten {A B : Type} (ls : List A) (f : A → List B) :
    ListMonad.bind ls f = (ls.map f).flatten := by
  unfold ListMonad.bind
  rw [ListMonad.bind_loop, List.nil_append]

/-- `Monad<List>::bind` of a non-empty list: the sub-result of the head, then the rest. -/
theorem ListMonad.bind_cons {A B : Type} (a : A) (t : List A) (f : A → List B) :
    ListMonad.bind (a :: t) f = f a ++ ListMonad.bind t f := by
  simp [ListMonad.bind_eq_flatten]

/-- `Monad<List>::bind` distributes over the concatenation of its first argument. -/
theorem ListMonad.bind_append {A B : Type} (l₁ l₂ : List A) (f : A → List B) :
    ListMonad.bind (l₁ ++ l₂) f = ListMonad.bind l₁ f ++ ListMonad.bind l₂ f := by
  simp [ListMonad.bind_eq_flatten]

/-- C8: `Monad<List>::bind` is an order-preserving flat-map: `bind(ls, f)` is the
concatenation `f(ls[0]) ++ f(ls[1]) ++ ...` in the order of `ls`; in particular
`bind([1,2,3], x => [x, x*10]) = [1,10,2,20,3,30]`, and `bind` of the empty list is
empty. -/
theorem list_bind_is_ordered_flat_map :
    (∀ {A B : Type} (ls : List A) (f : A → List B),
        ListMonad.bind ls f = (ls.map f).flatten ∧
        ListMonad.bind ls f = (List.ofFn (fun i : Fin ls.length => f (ls.get i))).flatten) ∧
    ListMonad.bind [1, 2, 3] (fun x : Int => [x, x * 10]) = [1, 10, 2, 20, 3, 30] ∧
    (∀ {A B : Type} (f : A → List B), ListMonad.bind [] f = []) := by
  refine ⟨fun ls f => ⟨ListMonad.bind_eq_flatten ls f, ?_⟩, by decide, fun f => rfl⟩
  rw [ListMonad.bind_eq_flatten]
  congr 1
  conv_lhs => rw [← List.ofFn_get ls]
  rw [List.map_ofFn]
  rfl

/-- C9: `Monad<List>::pure` builds a singleton: `pure(x)` has length 1 and its only
element is `x`; in particular `pure(3) = [3]`. -/
theorem list_pure_is_singleton :
    (∀ {A : Type} (x : A),
        ListMonad.pure x = [x] ∧ (ListMonad.pure x).length = 1 ∧
        ∀ y, y ∈ ListMonad.pure x ↔ y = x) ∧
    ListMonad.pure (3 : Int) = [3] := by
  refine ⟨fun x => ⟨rfl, rfl, fun y => ?_⟩, rfl⟩
  simp [ListMonad.pure]

/-- C10: monad associativity for `List`:
`bind(bind(m, f), g) = bind(m, x => bind(f(x), g))`. -/
theorem list_bind_assoc {A B C : Type} (m : List A) (f : A → List B) (g : B → List C) :
    ListMonad.bind (ListMonad.bind m f) g = ListMonad.bind m (fun x => ListMonad.bind (f x) g) := by
  induction m with
  | nil => rfl
  | cons a t ih => rw [ListMonad.bind_cons, ListMonad.bind_append, ih, ListMonad.bind_cons]

/-! ## The source's equations for `make_bind`, `fmap` and `bind` over `Free` -/

namespace Free

variable {E : EffectFunctor} {A B C : Type}

/-- Unpacking a packed pair gives back its shape and its filling. -/
theorem unpack_pack_mk {X : Type} (s : E.Shape) (k : E.Pos s → X) :
    E.unpack (E.pack ⟨s, k⟩) = ⟨s, k⟩ :=
  E.unpack_pack ⟨s, k⟩

/-- Every value of `F X` is a packed shape and filling. -/
theorem exists_pack {X : Type} (x : E.F X) :
    ∃ (s : E.Shape) (k : E.Pos s → X), x = E.pack ⟨s, k⟩ :=
  ⟨(E.unpack x).1, (E.unpack x).2, (E.pack_unpack x).symm⟩

/-- A `Bind` node is `make_bind` of its payload. -/
theorem make_bind_payload (s : E.Shape) (k : E.Pos s → Free E A) :
    make_bind (payload s k) = Bind s k := by
  unfold make_bind payload
  rw [unpack_pack_mk]

/-- `make_bind` of a packed layer is the `Bind` node that stores it. -/
theorem make_bind_pack (s : E.Shape) (k : E.Pos s → Free E A) :
    make_bind (E.pack ⟨s, k⟩) = Bind s k :=
  make_bind_payload s k

/-- Every tree is `make_return` of a value or `make_bind` of a layer of sub-trees. -/
theorem return_or_bind (v : Free E A) :
    (∃ a, v = make_return a) ∨ (∃ x : E.F (Free E A), v = make_bind x) := by
  cases v with
  | Return a => exact Or.inl ⟨a, rfl⟩
  | Bind s k => exact Or.inr ⟨payload s k, (make_bind_payload s k).symm⟩

/-- The source's `Bind` case of `FunctorImpl::fmap`:
`fmap(fun, Bind(x)) = make_bind(fmap(inner => fmap(fun, inner), x))`. -/
theorem fmap_make_bind (f : A → B) (x : E.F (Free E A)) :
    fmap f (make_bind x) = make_bind (Functor.fmap E (fun inner => fmap f inner) x) := by
  obtain ⟨s, k, rfl⟩ := exists_pack x
  unfold Functor.fmap
  rw [E.fmap_pack, make_bind_pack, make_bind_pack]
  rfl

/-- The source's `Bind` case of `MonadImpl::bind`:
`bind(Bind(x), f) = make_bind(fmap(m => bind(m, f), x))`. -/
theorem bind_make_bind (x : E.F (Free E A)) (f : A → Free E B) :
    bind (make_bind x) f = make_bind (Functor.fmap E (fun m => bind m f) x) := by
  obtain ⟨s, k, rfl⟩ := exists_pack x
  unfold Functor.fmap
  rw [E.fmap_pack, make_bind_pack, make_bind_pack]
  rfl

/-- `liftFree` of a packed layer is the `Bind` node whose sub-trees are the leaves. -/
theorem liftFree_pack (s : E.Shape) (k : E.Pos s → A) :
    liftFree (E.pack ⟨s, k⟩) = Bind s (fun p => Return (k p)) := by
  unfold liftFree Functor.fmap
  rw [E.fmap_pack, make_bind_pack]
  rfl

/-- The effect functor obeys the functor identity law. -/
theorem effect_fmap_id {X : Type} (x : E.F X) : E.fmap (fun a => a) x = x := by
  obtain ⟨s, k, rfl⟩ := exists_pack x
  rw [E.fmap_pack]

/-- The effect functor obeys the functor composition law. -/
theorem effect_fmap_comp {X Y Z : Type} (g : Y → Z) (h : X → Y) (x : E.F X) :
    E.fmap (fun a => g (h a)) x = E.fmap g (E.fmap h x) := by
  obtain ⟨s, k, rfl⟩ := exists_pack x
  rw [E.fmap_pack, E.fmap_pack, E.fmap_pack]

/-- The source's `Bind` case of `foldFree` for a natural handler:
`foldFree(handler, Bind(x)) = handler(x) >>= (inner => foldFree(handler, inner))`. -/
theorem foldFree_make_bind {M : Type → Type} (I : MonadImpl M)
    (handler : {X : Type} → E.F X → M X) (nat : NaturalHandler E I handler)
    (x : E.F (Free E A)) :
    foldFree I handler (make_bind x)
      = Monad.op_bind I (handler x) (fun inner => foldFree I handler inner) := by
  obtain ⟨s, k, rfl⟩ := exists_pack x
  have hk : E.pack ⟨s, k⟩ = E.fmap k (E.pack ⟨s, fun p => p⟩) := (E.fmap_pack k s _).symm
  rw [make_bind_pack, hk]
  show I.bind (handler (E.pack ⟨s, fun p => p⟩)) (fun p => foldFree I handler (k p)) = _
  exact (nat k _ _).symm

end Free

/-! ## `List` as the target monad of the identity handler -/

/-- For `List`, binding with `pure` gives the list back. -/
theorem ListMonad.bind_pure {X : Type} (m : List X) :
    Monad_List.bind m Monad_List.pure = m := by
  show ListMonad.bind m ListMonad.pure = m
  induction m with
  | nil => rfl
  | cons a t ih => rw [ListMonad.bind_cons, ih]; rfl

/-- For `List`, binding after `fmap(k, x)` is binding with the continuation precomposed
with `k`: the identity handler into the `List` monad is natural. -/
theorem ListMonad.identity_handler_natural :
    Free.NaturalHandler Functor_List Monad_List (fun x => x) := by
  intro X Y Z k x g
  show ListMonad.bind (ListFunctor.fmap k x) g = ListMonad.bind x (fun a => g (k a))
  rw [ListMonad.bind_eq_flatten, ListMonad.bind_eq_flatten, ListFunctor.fmap_eq_map, List.map_map]
  rfl

/-! ## The recursions with bounded depth return the value of the structural ones -/

namespace Free

variable {E : EffectFunctor} {A B : Type}

/-- The payload of `make_bind(x)` is `x`. -/
theorem payload_unpack (x : E.F (Free E A)) : payload (E.unpack x).1 (E.unpack x).2 = x :=
  E.pack_unpack x

/-- The source's `Bind` case of `foldFree`, for every handler: with one more nested call
allowed, `foldFree(handler, Bind(x))` is `handler(x) >>= (inner => foldFree(handler, inner))`. -/
theorem foldFree_fuel_make_bind {M : Type → Type} (I : MonadImpl M)
    (handler : {X : Type} → E.F X → M X) (bot : M A) (n : Nat) (x : E.F (Free E A)) :
    foldFree_fuel I handler bot (n + 1) (make_bind x)
      = I.bind (handler x) (fun inner => foldFree_fuel I handler bot n inner) := by
  show I.bind (handler (payload (E.unpack x).1 (E.unpack x).2)) _ = _
  rw [payload_unpack]

/-- For a natural handler and a tree of depth at most `n`, `n + 1` nested calls suffice
and the source's recursion returns the value of `foldFree`, whatever `bot` is. -/
theorem foldFree_fuel_eq_foldFree {M : Type → Type} (I : MonadImpl M)
    (handler : {X : Type} → E.F X → M X) (nat : NaturalHandler E I handler) (bot : M A)
    (n : Nat) (v : Free E A) (hd : DepthLe n v) :
    foldFree_fuel I handler bot (n + 1) v = foldFree I handler v := by
  induction hd with
  | leaf n a => rfl
  | node n s k _ ih =>
    show I.bind (handler (E.pack ⟨s, k⟩)) (fun inner => foldFree_fuel I handler bot (n + 1) inner)
      = I.bind (handler (E.pack ⟨s, fun p => p⟩)) (fun p => foldFree I handler (k p))
    have hk : E.pack ⟨s, k⟩ = E.fmap k (E.pack ⟨s, fun p => p⟩) := (E.fmap_pack k s _).symm
    rw [hk, nat]
    congr 1
    funext p
    exact ih p

/-- A bound on the depth of a tree stays a bound when it grows. -/
theorem DepthLe.mono {n m : Nat} {v : Free E A} (hd : DepthLe n v) (hnm : n ≤ m) :
    DepthLe m v := by
  induction hd generalizing m with
  | leaf n a => exact DepthLe.leaf m a
  | node n s k _ ih =>
    cases m with
    | zero => omega
    | succ m => exact DepthLe.node m s k (fun p => ih p (by omega))

/-- An element of a list of numbers is at most their maximum. -/
theorem le_foldr_max (l : List Nat) (x : Nat) (hx : x ∈ l) : x ≤ l.foldr max 0 := by
  induction l with
  | nil => cases hx
  | cons y t ih =>
    rcases List.mem_cons.mp hx with h | h
    · subst h; exact Nat.le_max_left _ _
    · exact Nat.le_trans (ih h) (Nat.le_max_right _ _)

/-- Over `List`, a stored sub-tree is less deep than the `Bind` node that stores it. -/
theorem depth_stored_lt (n : Nat) (k : Fin n → Free Functor_List A) (p : Fin n) :
    depth (k p) < depth (Bind (E := Functor_List) n k) := by
  show depth (k p) < 1 + (List.ofFn (fun i : Fin n => depth (k i))).foldr max 0
  have h := le_foldr_max (List.ofFn (fun i : Fin n => depth (k i))) (depth (k p))
    ((List.mem_ofFn _ _).mpr ⟨p, rfl⟩)
  omega

/-- Over `List`, the depth of a tree bounds its depth. -/
theorem depthLe_depth (v : Free Functor_List A) : DepthLe (depth v) v := by
  induction v with
  | Return a => exact DepthLe.leaf _ a
  | Bind s k ih =>
    have h : depth (Bind (E := Functor_List) s k)
        = (depth (Bind (E := Functor_List) s k) - 1) + 1 := by
      have : 1 ≤ depth (Bind (E := Functor_List) s k) := by
        show 1 ≤ 1 + (List.ofFn (fun i : Fin s => depth (k i))).foldr max 0
        omega
      omega
    rw [h]
    refine DepthLe.node _ s k (fun p => (ih p).mono ?_)
    have := depth_stored_lt s k p
    omega

end Free

/-! ## The claims about `Free` -/

/-- C1: Free round-trip.  For an effect functor that is also the target monad, whose
`bind` obeys right identity (`bind(m, pure) = m`) and treats a relabelled layer
uniformly (the identity handler is natural), and for every effect value `e`,
`foldFree(identityHandler, liftFree(e))` is `e`. -/
theorem foldFree_liftFree_roundtrip (E : EffectFunctor) (I : MonadImpl E.F)
    (nat : Free.NaturalHandler E I (fun x => x))
    (right_identity : ∀ {X : Type} (m : E.F X), I.bind m I.pure = m)
    {A : Type} (e : E.F A) :
    Free.foldFree I (fun x => x) (Free.liftFree e) = e := by
  obtain ⟨s, k, rfl⟩ := Free.exists_pack e
  rw [Free.liftFree_pack]
  show I.bind (E.pack ⟨s, fun p => p⟩) (fun p => I.pure (k p)) = _
  have h := nat k (E.pack ⟨s, fun p => p⟩) I.pure
  rw [E.fmap_pack] at h
  rw [← h]
  exact right_identity _

/-- The round-trip at `F = M = List` with the identity handler and `e = [1, 2, 3]`. -/
theorem foldFree_liftFree_roundtrip_witness :
    Free.NaturalHandler Functor_List Monad_List (fun x => x) ∧
    (∀ {X : Type} (m : Functor_List.F X), Monad_List.bind m Monad_List.pure = m) ∧
    Free.foldFree (E := Functor_List) Monad_List (fun x => x)
      (Free.liftFree (E := Functor_List) ([1, 2, 3] : List Int)) = [1, 2, 3] :=
  ⟨ListMonad.identity_handler_natural, ListMonad.bind_pure,
   foldFree_liftFree_roundtrip Functor_List Monad_List ListMonad.identity_handler_natural
     ListMonad.bind_pure [1, 2, 3]⟩

/-- C2: `foldFree` satisfies its two defining equations for every handler, every value
`a` and every effect layer `x`, at every depth of nested calls:
`foldFree(handler, Return(a)) = pure_M(a)` and
`foldFree(handler, Bind(x)) = bind_M(handler(x), inner => foldFree(handler, inner))`;
the result is the very value `pure_M`, respectively `bind_M`, returns.  For a handler
that is uniform in the element type, the recursion returns the value of `foldFree` on
every tree whose depth the fuel covers, and `foldFree` satisfies the `Bind` equation
without a bound. -/
theorem foldFree_defining_equations (E : EffectFunctor) {M : Type → Type} (I : MonadImpl M)
    (handler : {X : Type} → E.F X → M X) {A : Type} (bot : M A) (n : Nat) :
    (∀ a : A, Free.foldFree_fuel I handler bot (n + 1) (Free.Return a : Free E A) = I.pure a) ∧
    (∀ x : E.F (Free E A),
      Free.foldFree_fuel I handler bot (n + 1) (Free.make_bind x)
        = I.bind (handler x) (fun inner => Free.foldFree_fuel I handler bot n inner)) ∧
    (Free.NaturalHandler E I handler →
      (∀ v : Free E A, Free.DepthLe n v →
        Free.foldFree_fuel I handler bot (n + 1) v = Free.foldFree I handler v) ∧
      (∀ x : E.F (Free E A),
        Free.foldFree I handler (Free.make_bind x)
          = I.bind (handler x) (fun inner => Free.foldFree I handler inner))) :=
  ⟨fun _ => rfl, fun x => Free.foldFree_fuel_make_bind I handler bot n x,
   fun nat => ⟨fun v hd => Free.foldFree_fuel_eq_foldFree I handler nat bot n v hd,
     fun x => Free.foldFree_make_bind I handler nat x⟩⟩

/-- C3: monad right identity for `Free`: `bind(m, pure) = m` for every tree `m`. -/
theorem free_bind_pure (E : EffectFunctor) {A : Type} (m : Free E A) :
    Free.bind m Free.pure = m := by
  induction m with
  | Return a => rfl
  | Bind s k ih =>
    show Free.Bind s (fun p => Free.bind (k p) Free.pure) = Free.Bind s k
    congr 1
    funext p
    exact ih p

/-- C4: monad associativity for `Free`:
`bind(bind(m, f), g) = bind(m, x => bind(f(x), g))`. -/
theorem free_bind_assoc (E : EffectFunctor) {A B C : Type} (m : Free E A)
    (f : A → Free E B) (g : B → Free E C) :
    Free.bind (Free.bind m f) g = Free.bind m (fun x => Free.bind (f x) g) := by
  induction m with
  | Return a => rfl
  | Bind s k ih =>
    show Free.Bind s (fun p => Free.bind (Free.bind (k p) f) g)
      = Free.Bind s (fun p => Free.bind (k p) (fun x => Free.bind (f x) g))
    congr 1
    funext p
    exact ih p

/-- C5: monad left identity for `Free`: `pure(x)` is `Return(x)` and
`bind(pure(x), fn) = fn(x)`: the continuation's result stands where the leaf stood and
no `Bind` layer is added. -/
theorem free_pure_bind (E : EffectFunctor) {A B : Type} (x : A) (fn : A → Free E B) :
    (Free.pure x : Free E A) = Free.Return x ∧ Free.bind (Free.pure x) fn = fn x :=
  ⟨rfl, rfl⟩

/-- C6: functor identity for `Free`: `fmap(id, v) = v` for every tree `v`. -/
theorem free_fmap_id (E : EffectFunctor) {A : Type} (v : Free E A) :
    Free.fmap id v = v := by
  induction v with
  | Return a => rfl
  | Bind s k ih =>
    show Free.Bind s (fun p => Free.fmap id (k p)) = Free.Bind s k
    congr 1
    funext p
    exact ih p

/-- C7: functor composition for `Free`:
`fmap(compose(g, h), v) = fmap(g, fmap(h, v))`. -/
theorem free_fmap_compose (E : EffectFunctor) {A B C : Type} (g : B → C) (h : A → B)
    (v : Free E A) :
    Free.fmap (compose g h) v = Free.fmap g (Free.fmap h v) := by
  induction v with
  | Return a => rfl
  | Bind s k ih =>
    show Free.Bind s (fun p => Free.fmap (compose g h) (k p))
      = Free.Bind s (fun p => Free.fmap g (Free.fmap h (k p)))
    congr 1
    funext p
    exact ih p

/-! ## The remaining claims about `List` and the infix sugar -/

/-- `Monad<List>::bind` with a constant continuation repeats its result once per
element of the first argument. -/
theorem ListMonad.bind_const {A B : Type} (m : List A) (v : List B) :
    ListMonad.bind m (fun _ => v) = (List.replicate m.length v).flatten := by
  induction m with
  | nil => rfl
  | cons a t ih => rw [ListMonad.bind_cons, ih]; rfl

/-- C11: monad right identity for `List`: `bind(m, pure) = m` for every list `m`, so the
result has the elements of `m` in the order of `m` and the length of `m`. -/
theorem list_bind_pure_right_identity {A : Type} (m : List A) :
    ListMonad.bind m ListMonad.pure = m ∧
    (ListMonad.bind m ListMonad.pure).length = m.length ∧
    ∀ i : Nat, (ListMonad.bind m ListMonad.pure)[i]? = m[i]? := by
  have h : ListMonad.bind m ListMonad.pure = m := ListMonad.bind_pure m
  rw [h]
  exact ⟨rfl, rfl, fun _ => rfl⟩

/-- C12, as stated, fails: with the empty list on the left, `m >> v` is empty and not
`v`; with two elements on the left, it is `v` twice. -/
theorem op_seq_is_not_right_operand :
    Monad.op_seq Monad_List ([] : List Int) ([1] : List Int) ≠ [1] ∧
    Monad.op_seq Monad_List ([5, 6] : List Int) ([1] : List Int) ≠ [1] := by
  decide

/-- C12, amended: `m >> v` is `bind(m, _ => v)`: the continuation returns the right
operand for every value the left operand yields, whatever that value is.  For lists
the result is `v` repeated once per element of `m`; it is `v` itself when `m` has
exactly one element and it is empty when `m` is empty. -/
theorem op_seq_is_bind_of_constant :
    (∀ {M : Type → Type} (I : MonadImpl M) {A B : Type} (m : M A) (v : M B),
        Monad.op_seq I m v = I.bind m (fun _ => v)) ∧
    (∀ {A B : Type} (m : List A) (v : List B),
        Monad.op_seq Monad_List m v = (List.replicate m.length v).flatten) ∧
    (∀ {A B : Type} (a : A) (v : List B), Monad.op_seq Monad_List [a] v = v) ∧
    (∀ {A B : Type} (v : List B), Monad.op_seq Monad_List ([] : List A) v = []) := by
  refine ⟨by intros; rfl, fun m v => ListMonad.bind_const m v, fun a v => ?_, by intros; rfl⟩
  show ListMonad.bind [a] (fun _ => v) = v
  rw [ListMonad.bind_cons]
  exact List.append_nil v

/-- C13, on the code: `IsMonad<M>` is `IsFunctor<M>` for every class template `M`,
whether or not a `Monad<M>` specialisation is defined.  `NullFunctor`, a Functor for
which no `Monad` specialisation is defined, is classified true, as are `List` and the
Free wrapper `NullFreeWrapper`. -/
theorem isMonad_is_isFunctor :
    (∀ T : ClassTemplate, Monad.IsMonad T = Functor.IsFunctor T) ∧
    (Functor.IsFunctor Decl_NullFunctor = true ∧ Decl_NullFunctor.monad_defined = false ∧
      Monad.IsMonad Decl_NullFunctor = true) ∧
    Monad.IsMonad Decl_List = true ∧ Monad.IsMonad Decl_NullFreeWrapper = true := by
  refine ⟨fun T => ?_, ⟨rfl, rfl, rfl⟩, rfl, rfl⟩
  cases T with
  | mk c d => cases c <;> rfl

/-- C17: `Functor<List>::fmap` is shape-preserving: `fmap(fun, ls)` has the length of
`ls` and its `i`-th element is `fun(ls[i])` for every index `i`; consequently
`fmap(id, ls) = ls` and `fmap(compose(g, h), ls) = fmap(g, fmap(h, ls))`. -/
theorem list_fmap_shape_preserving :
    (∀ {A B : Type} (f : A → B) (ls : List A),
        (ListFunctor.fmap f ls).length = ls.length ∧
        (∀ i : Fin ls.length, (ListFunctor.fmap f ls)[i.val]? = some (f (ls.get i))) ∧
        (∀ i : Nat, ls.length ≤ i → (ListFunctor.fmap f ls)[i]? = none)) ∧
    (∀ {A : Type} (ls : List A), ListFunctor.fmap id ls = ls) ∧
    (∀ {A B C : Type} (g : B → C) (h : A → B) (ls : List A),
        ListFunctor.fmap (compose g h) ls = ListFunctor.fmap g (ListFunctor.fmap h ls)) := by
  refine ⟨fun f ls => ?_, fun ls => ?_, fun g h ls => ?_⟩
  · rw [ListFunctor.fmap_eq_map]
    refine ⟨List.length_map ls f, fun i => ?_, fun i hi => ?_⟩
    · simp [List.getElem?_map]
    · simp [List.getElem?_map, hi]
  · rw [ListFunctor.fmap_eq_map]
    exact List.map_id ls
  · rw [ListFunctor.fmap_eq_map, ListFunctor.fmap_eq_map, ListFunctor.fmap_eq_map, List.map_map]
    rfl

/-! ## Trees over `List` -/

namespace Free

/-- Over `List`, `make_bind` of a list of sub-trees stores its length and its elements. -/
theorem make_bind_list {A : Type} (xs : List (Free Functor_List A)) :
    make_bind (E := Functor_List) xs = Bind (E := Functor_List) xs.length xs.get :=
  rfl

/-- Mapping over the sub-trees of a list: the list of the values at its positions. -/
theorem ofFn_get_map {X Y : Type} (g : X → Y) (xs : List X) :
    List.ofFn (fun i : Fin xs.length => g (xs.get i)) = xs.map g := by
  conv_rhs => rw [← List.ofFn_get xs]
  rw [List.map_ofFn]
  rfl

/-- The leaves of `make_bind(xs)` are the leaves of the elements of `xs`, in order. -/
theorem leaves_dfs_make_bind {A : Type} (xs : List (Free Functor_List A)) :
    leaves_dfs (make_bind (E := Functor_List) xs) = (xs.map leaves_dfs).flatten := by
  rw [make_bind_list]
  show (List.ofFn (fun i : Fin xs.length => leaves_dfs (xs.get i))).flatten = _
  rw [ofFn_get_map]

/-- Folding a tree over `List` with the identity handler into the `List` monad lists its
leaves depth first, left to right. -/
theorem foldFree_identity_eq_leaves {A : Type} (v : Free Functor_List A) :
    foldFree (E := Functor_List) Monad_List (fun x => x) v = leaves_dfs v := by
  induction v with
  | Return a => rfl
  | Bind n k ih =>
    show ListMonad.bind (List.ofFn (fun p : Fin n => p))
        (fun p => foldFree (E := Functor_List) Monad_List (fun x => x) (k p))
      = (List.ofFn (fun i : Fin n => leaves_dfs (k i))).flatten
    rw [ListMonad.bind_eq_flatten, List.map_ofFn]
    congr 2
    funext p
    exact ih p

/-- The list of leaves has one entry per `Return` leaf. -/
theorem length_leaves_dfs {A : Type} (v : Free Functor_List A) :
    (leaves_dfs v).length = leaf_count v := by
  induction v with
  | Return a => rfl
  | Bind n k ih =>
    show ((List.ofFn (fun i : Fin n => leaves_dfs (k i))).flatten).length
      = (List.ofFn (fun i : Fin n => leaf_count (k i))).sum
    rw [List.length_flatten, List.map_ofFn]
    congr 2
    funext p
    exact ih p

end Free

/-- C14: interpretation order is depth first, left to right: for every tree over the
`List` effect functor, `foldFree` with the identity handler into the `List` monad is the
list of the tree's `Return` leaves, each once, in depth-first left-to-right order. -/
theorem foldFree_identity_is_leaves_dfs :
    (∀ {A : Type} (v : Free Functor_List A),
        Free.foldFree (E := Functor_List) Monad_List (fun x => x) v = Free.leaves_dfs v ∧
        (Free.foldFree (E := Functor_List) Monad_List (fun x => x) v).length
          = Free.leaf_count v) ∧
    (∀ {A : Type} (a : A), Free.leaves_dfs (Free.make_return (E := Functor_List) a) = [a]) ∧
    (∀ {A : Type} (xs : List (Free Functor_List A)),
        Free.leaves_dfs (Free.make_bind (E := Functor_List) xs)
          = (xs.map Free.leaves_dfs).flatten) := by
  refine ⟨fun v => ⟨Free.foldFree_identity_eq_leaves v, ?_⟩, fun _ => rfl,
    fun xs => Free.leaves_dfs_make_bind xs⟩
  rw [Free.foldFree_identity_eq_leaves, Free.length_leaves_dfs]

/-! ## `fmap` keeps the tree, termination, and the link between the two instances -/

namespace Free

variable {E : EffectFunctor} {A B C : Type}

/-- `fmap` keeps the `Bind` layers of a tree and where they sit. -/
theorem skeleton_fmap (f : A → B) (v : Free E A) : skeleton (fmap f v) = skeleton v := by
  induction v with
  | Return a => rfl
  | Bind s k ih =>
    show Bind s (fun p => skeleton (fmap f (k p))) = Bind s (fun p => skeleton (k p))
    congr 1
    funext p
    exact ih p

/-- Over `List`, `fmap` keeps the number of `Bind` nodes. -/
theorem bind_count_fmap (f : A → B) (v : Free Functor_List A) :
    bind_count (fmap f v) = bind_count v := by
  induction v with
  | Return a => rfl
  | Bind n k ih =>
    show 1 + (List.ofFn (fun i : Fin n => bind_count (fmap f (k i)))).sum
      = 1 + (List.ofFn (fun i : Fin n => bind_count (k i))).sum
    congr 3
    funext p
    exact ih p

/-- Over `List`, `fmap` keeps the number of `Return` leaves. -/
theorem leaf_count_fmap (f : A → B) (v : Free Functor_List A) :
    leaf_count (fmap f v) = leaf_count v := by
  induction v with
  | Return a => rfl
  | Bind n k ih =>
    show (List.ofFn (fun i : Fin n => leaf_count (fmap f (k i)))).sum
      = (List.ofFn (fun i : Fin n => leaf_count (k i))).sum
    congr 2
    funext p
    exact ih p

/-- Over `List`, `fmap` keeps the depth. -/
theorem depth_fmap (f : A → B) (v : Free Functor_List A) :
    depth (fmap f v) = depth v := by
  induction v with
  | Return a => rfl
  | Bind n k ih =>
    show 1 + (List.ofFn (fun i : Fin n => depth (fmap f (k i)))).foldr max 0
      = 1 + (List.ofFn (fun i : Fin n => depth (k i))).foldr max 0
    congr 3
    funext p
    exact ih p

/-- Over `List`, the leaves of `fmap(fun, v)` are `fun` applied to the leaves of `v`, in
the same order. -/
theorem leaves_dfs_fmap (f : A → B) (v : Free Functor_List A) :
    leaves_dfs (fmap f v) = (leaves_dfs v).map f := by
  induction v with
  | Return a => rfl
  | Bind n k ih =>
    show (List.ofFn (fun i : Fin n => leaves_dfs (fmap f (k i)))).flatten
      = ((List.ofFn (fun i : Fin n => leaves_dfs (k i))).flatten).map f
    rw [List.map_flatten, List.map_ofFn]
    congr 2
    funext p
    exact ih p

end Free

/-- C15: `fmap` over `Free` is structure-preserving and touches only leaves.
`Return(a)` maps to `Return(fun(a))` and `Bind(x)` maps to
`Bind(fmap(inner => fmap(fun, inner), x))`; `fmap(fun, v)` has the `Bind` layers of `v`
in the same positions; over `List` it has as many `Bind` nodes, the same depth and as
many `Return` leaves as `v`, and its leaves, read in order, are `fun` applied to the
leaves of `v`. -/
theorem free_fmap_structure_preserving :
    (∀ {E : EffectFunctor} {A B : Type} (f : A → B),
        (∀ a : A, Free.fmap f (Free.make_return (E := E) a) = Free.make_return (f a)) ∧
        (∀ x : E.F (Free E A),
          Free.fmap f (Free.make_bind x)
            = Free.make_bind (Functor.fmap E (fun inner => Free.fmap f inner) x)) ∧
        (∀ v : Free E A, Free.skeleton (Free.fmap f v) = Free.skeleton v)) ∧
    (∀ {A B : Type} (f : A → B) (v : Free Functor_List A),
        Free.bind_count (Free.fmap f v) = Free.bind_count v ∧
        Free.depth (Free.fmap f v) = Free.depth v ∧
        Free.leaf_count (Free.fmap f v) = Free.leaf_count v ∧
        Free.leaves_dfs (Free.fmap f v) = (Free.leaves_dfs v).map f) :=
  ⟨fun f => ⟨fun _ => rfl, fun x => Free.fmap_make_bind f x, fun v => Free.skeleton_fmap f v⟩,
   fun f v => ⟨Free.bind_count_fmap f v, Free.depth_fmap f v, Free.leaf_count_fmap f v,
     Free.leaves_dfs_fmap f v⟩⟩

/-- C19: the Functor and Monad instances of `Free` agree:
`fmap(fun, v) = bind(v, a => pure(fun(a)))` for every function `fun` and tree `v`. -/
theorem free_fmap_eq_bind_pure (E : EffectFunctor) {A B : Type} (f : A → B) (v : Free E A) :
    Free.fmap f v = Free.bind v (fun a => Free.pure (f a)) := by
  induction v with
  | Return a => rfl
  | Bind s k ih =>
    show Free.Bind s (fun p => Free.fmap f (k p))
      = Free.Bind s (fun p => Free.bind (k p) (fun a => Free.pure (f a)))
    congr 1
    funext p
    exact ih p

end FreeMonads
